import Mathlib

/- Verification of the graph-store core of synapse-brain-twin.

The embedding models the data types of src/types.ts and the three state
handlers of the App component found in the same source file:
`handleApplyChanges` (change-proposal reconciliation), `updateTaskInMindMap`
(task write-back), and the surrounding App state holding the mind map and
the task list.  TypeScript enum-typed fields (`type`, `priority`, `urgency`)
are plain strings at runtime (the code performs no validation of parsed
JSON), so they are modelled as `String`; optional fields are `Option`.
JavaScript object spread `\x7b...n, ...u\x7d` is modelled field by field. -/

set_option maxHeartbeats 1000000

namespace Synapse

/-- Node of the mind map (src/types.ts, `MindNode`).  Coordinates only get
copied by the modelled operations, never computed with, so `Int` stands in
for the JS number type. -/
@[ext]
structure MindNode where
  id : String
  label : String
  type : String
  description : String
  icon : Option String := none
  details : Option String := none
  date : Option String := none
  reminderDate : Option String := none
  isCompleted : Option Bool := none
  priority : Option String := none
  x : Option Int := none
  y : Option Int := none
deriving DecidableEq

/-- Edge of the mind map (src/types.ts, `MindEdge`). -/
@[ext]
structure MindEdge where
  id : String
  source : String
  target : String
  label : Option String := none
deriving DecidableEq

/-- The graph store state (src/types.ts, `MindMapData`). -/
@[ext]
structure MindMapData where
  nodes : List MindNode
  edges : List MindEdge
deriving DecidableEq

/-- A task (src/types.ts, `Task`). -/
structure Task where
  id : String
  title : String
  dueDate : Option String := none
  reminderDate : Option String := none
  urgency : String
  completed : Bool
  nodeId : String
deriving DecidableEq

/-- A partial node update, the TS `Partial` of `MindNode`: every field may be
absent.  An absent field leaves the target field untouched under object
spread. -/
structure MindNodePatch where
  id : Option String := none
  label : Option String := none
  type : Option String := none
  description : Option String := none
  icon : Option String := none
  details : Option String := none
  date : Option String := none
  reminderDate : Option String := none
  isCompleted : Option Bool := none
  priority : Option String := none
  x : Option Int := none
  y : Option Int := none
deriving DecidableEq

/-- A change proposal (src/types.ts, `MindMapChangeProposal`).  The JS code
guards each list with `|| []`, so an absent list is the empty list here. -/
structure MindMapChangeProposal where
  nodesToAdd : List MindNode
  nodesToUpdate : List MindNodePatch
  edgesToAdd : List MindEdge
  explanation : String
deriving DecidableEq

/-- The App component state that the claims touch: the mind map and the
derived task list (React `useState` pair in the App component). -/
structure AppState where
  mindMap : MindMapData
  tasks : List Task
deriving DecidableEq

/-- Override semantics of one spread field: a field present in the update
wins, an absent one keeps the old value. -/
def ovr (u old : Option α) : Option α :=
  match u with
  | some v => some v
  | none => old

/-- Object spread merge of a partial update into a node, the JS expression
`\x7b ...newNodes[idx], ...update \x7d` in `handleApplyChanges`. -/
def mergeNode (n : MindNode) (u : MindNodePatch) : MindNode :=
  { id := u.id.getD n.id
    label := u.label.getD n.label
    type := u.type.getD n.type
    description := u.description.getD n.description
    icon := ovr u.icon n.icon
    details := ovr u.details n.details
    date := ovr u.date n.date
    reminderDate := ovr u.reminderDate n.reminderDate
    isCompleted := ovr u.isCompleted n.isCompleted
    priority := ovr u.priority n.priority
    x := ovr u.x n.x
    y := ovr u.y n.y }

/-- One iteration of the `nodesToAdd` loop of `handleApplyChanges`: push the
node unless some node with the same id is already present. -/
def addNodeStep (ns : List MindNode) (node : MindNode) : List MindNode :=
  if ∃ n ∈ ns, n.id = node.id then ns else ns ++ [node]

/-- One iteration of the `edgesToAdd` loop of `handleApplyChanges`: push the
edge unless some edge with the same id is already present.  Source and
target are not inspected. -/
def addEdgeStep (es : List MindEdge) (e : MindEdge) : List MindEdge :=
  if ∃ e0 ∈ es, e0.id = e.id then es else es ++ [e]

/-- One iteration of the `nodesToUpdate` loop of `handleApplyChanges`:
`findIndex` by id followed by in-place replacement of the first node whose
id equals the id carried by the update (an update without id matches
nothing, as `n.id === undefined` is false for string ids). -/
def updateNodeStep (u : MindNodePatch) : List MindNode → List MindNode
  | [] => []
  | n :: rest =>
    if u.id = some n.id then mergeNode n u :: rest
    else n :: updateNodeStep u rest

/-- The `nodesToAdd` loop. -/
def applyAdds (A : List MindNode) (ns : List MindNode) : List MindNode :=
  A.foldl addNodeStep ns

/-- The `nodesToUpdate` loop. -/
def applyUpdates (U : List MindNodePatch) (ns : List MindNode) : List MindNode :=
  U.foldl (fun ns u => updateNodeStep u ns) ns

/-- The `edgesToAdd` loop. -/
def applyEdgeAdds (E : List MindEdge) (es : List MindEdge) : List MindEdge :=
  E.foldl addEdgeStep es

/-- The reconciler `handleApplyChanges` of the App component: adds first,
then updates, then edges; the explanation plays no role in the state. -/
def handleApplyChanges (p : MindMapChangeProposal) (m : MindMapData) : MindMapData :=
  { nodes := applyUpdates p.nodesToUpdate (applyAdds p.nodesToAdd m.nodes)
    edges := applyEdgeAdds p.edgesToAdd m.edges }

/-- Write-back of a task onto a node inside `updateTaskInMindMap`: label,
date, reminderDate, priority and isCompleted are overwritten from the task
(the due date overwrites even when absent, as the JS assignment
`date: updatedTask.dueDate` does). -/
def writeBack (t : Task) (n : MindNode) : MindNode :=
  { n with
    label := t.title
    date := t.dueDate
    reminderDate := t.reminderDate
    priority := some t.urgency
    isCompleted := some t.completed }

/-- The `updateTaskInMindMap` handler restricted to the mind map it maps
over: every node whose id is the task's nodeId receives the write-back. -/
def updateTaskInMindMap (t : Task) (m : MindMapData) : MindMapData :=
  { m with nodes := m.nodes.map fun n => if n.id = t.nodeId then writeBack t n else n }

/-- The `updateTaskInMindMap` handler at App level: it calls `setMindMap`
only; the `tasks` state is not touched by it. -/
def appUpdateTaskInMindMap (t : Task) (s : AppState) : AppState :=
  { s with mindMap := updateTaskInMindMap t s.mindMap }

/-- The ids of a node list. -/
def nodeIds (ns : List MindNode) : List String := ns.map MindNode.id

/-- The ids of an edge list. -/
def edgeIds (es : List MindEdge) : List String := es.map MindEdge.id

/-- Referential integrity: every edge endpoint names an existing node. -/
def NoDangling (m : MindMapData) : Prop :=
  ∀ e ∈ m.edges, e.source ∈ nodeIds m.nodes ∧ e.target ∈ nodeIds m.nodes

/-- Decidability of the dangling-edge check, for concrete evaluation. -/
instance (m : MindMapData) : Decidable (NoDangling m) := by
  unfold NoDangling
  infer_instance

/-- Well-formedness of a node per the assistant contract of the spec: the
type belongs to the five-value enum and the priority, when present, to the
three-value enum. -/
def WellFormedNode (n : MindNode) : Prop :=
  n.type ∈ ["concept", "task", "person", "event", "resource"] ∧
    (n.priority = none ∨ ∃ s ∈ ["high", "medium", "low"], n.priority = some s)

/-- Decidability of node well-formedness, for concrete evaluation. -/
instance (n : MindNode) : Decidable (WellFormedNode n) := by
  unfold WellFormedNode
  infer_instance

/-- The seed graph of the App component (`INITIAL_DATA`). -/
def INITIAL_DATA : MindMapData :=
  { nodes := [
      { id := "me", label := "My Consciousness", type := "concept", icon := some "🧠",
        description := "The root of my digital twin.", x := some 0, y := some 0 },
      { id := "work", label := "Work", type := "concept", icon := some "💼",
        description := "Professional life and goals.", x := some 150, y := some 50 },
      { id := "health", label := "Health", type := "concept", icon := some "💪",
        description := "Physical and mental well-being.", x := some (-150), y := some 50 }]
    edges := [
      { id := "e1", source := "me", target := "work" },
      { id := "e2", source := "me", target := "health" }] }

/-- Membership in the id list of the nodes. -/
lemma mem_nodeIds {x : String} {ns : List MindNode} :
    x ∈ nodeIds ns ↔ ∃ n ∈ ns, n.id = x := by
  simp [nodeIds]

/-- Membership in the id list of the edges. -/
lemma mem_edgeIds {x : String} {es : List MindEdge} :
    x ∈ edgeIds es ↔ ∃ e ∈ es, e.id = x := by
  simp [edgeIds]

/-- Merging an update found by id lookup keeps the id. -/
lemma mergeNode_id {n : MindNode} {u : MindNodePatch} (h : u.id = some n.id) :
    (mergeNode n u).id = n.id := by
  simp [mergeNode, h]

/-- Mapping a function that fixes every member of a list is the identity. -/
lemma map_self {f : α → α} : ∀ l : List α, (∀ a ∈ l, f a = a) → l.map f = l
  | [], _ => rfl
  | a :: l, h => by
    rw [List.map_cons, h a (by simp), map_self l fun b hb => h b (by simp [hb])]

/-- C7: a node update whose id matches no node in the store is a no-op on
the node list. -/
theorem updateNode_ghost_noop (u : MindNodePatch) (ns : List MindNode)
    (h : ∀ n ∈ ns, ¬ u.id = some n.id) : updateNodeStep u ns = ns := by
  induction ns with
  | nil => rfl
  | cons n rest ih =>
    simp only [updateNodeStep]
    rw [if_neg (h n (by simp)), ih fun n hn => h n (by simp [hn])]

/-- A ghost update against the seed store. -/
def ghostPatch : MindNodePatch := { id := some "ghost", label := some "X" }

/-- Witness for C7: the patch targeting id "ghost" leaves the seed node
list unchanged. -/
theorem updateNode_ghost_noop_witness :
    (∀ n ∈ INITIAL_DATA.nodes, ¬ ghostPatch.id = some n.id) ∧
      updateNodeStep ghostPatch INITIAL_DATA.nodes = INITIAL_DATA.nodes :=
  ⟨by decide, updateNode_ghost_noop ghostPatch INITIAL_DATA.nodes (by decide)⟩

/-- C10: a task edit whose nodeId matches no node leaves the mind map (all
node fields and the edge list) unchanged. -/
theorem taskEdit_unknown_node_noop (t : Task) (m : MindMapData)
    (h : ∀ n ∈ m.nodes, n.id ≠ t.nodeId) : updateTaskInMindMap t m = m := by
  obtain ⟨ns, es⟩ := m
  simp only [updateTaskInMindMap, MindMapData.mk.injEq, and_true]
  exact map_self ns fun n hn => if_neg (h n hn)

/-- A task edit aimed at a node id absent from the seed graph. -/
def ghostTask : Task :=
  { id := "t9", title := "X", urgency := "high", completed := false, nodeId := "ghost" }

/-- Witness for C10: the ghost-targeted task edit leaves the seed graph
unchanged. -/
theorem taskEdit_unknown_node_noop_witness :
    (∀ n ∈ INITIAL_DATA.nodes, n.id ≠ ghostTask.nodeId) ∧
      updateTaskInMindMap ghostTask INITIAL_DATA = INITIAL_DATA :=
  ⟨by decide, taskEdit_unknown_node_noop ghostTask INITIAL_DATA (by decide)⟩

/-- C5: a task edit writes title, dueDate, reminderDate, urgency and
completion onto the node whose id is the task's nodeId, and the rewritten
node is in the resulting store. -/
theorem taskEdit_writeback (t : Task) (m : MindMapData) (n : MindNode)
    (hmem : n ∈ m.nodes) (hid : n.id = t.nodeId) :
    writeBack t n ∈ (updateTaskInMindMap t m).nodes ∧
      (writeBack t n).label = t.title ∧
      (writeBack t n).date = t.dueDate ∧
      (writeBack t n).reminderDate = t.reminderDate ∧
      (writeBack t n).priority = some t.urgency ∧
      (writeBack t n).isCompleted = some t.completed := by
  refine ⟨?_, rfl, rfl, rfl, rfl, rfl⟩
  simp only [updateTaskInMindMap]
  exact List.mem_map.mpr ⟨n, hmem, if_pos hid⟩

/-- The node of the round-trip scenario of the spec. -/
def exNodeN1 : MindNode :=
  { id := "n1", label := "Old", type := "task", description := "", priority := some "low" }

/-- The task of the round-trip scenario of the spec. -/
def exTaskT : Task :=
  { id := "t1", title := "New", urgency := "high", completed := true, nodeId := "n1" }

/-- A one-node store holding the round-trip node. -/
def exStore : MindMapData := { nodes := [exNodeN1], edges := [] }

/-- Witness for C5: the spec round-trip yields label "New", priority
"high" and isCompleted true on the n1 node. -/
theorem taskEdit_writeback_witness :
    writeBack exTaskT exNodeN1 ∈ (updateTaskInMindMap exTaskT exStore).nodes ∧
      (writeBack exTaskT exNodeN1).label = "New" ∧
      (writeBack exTaskT exNodeN1).priority = some "high" ∧
      (writeBack exTaskT exNodeN1).isCompleted = some true :=
  ⟨(taskEdit_writeback exTaskT exStore exNodeN1 (by decide) rfl).1, rfl, rfl, rfl⟩

/-- C6: a node update found by id replaces the first matching node with the
spread merge, which keeps the id and preserves every field absent from the
partial while taking over present ones. -/
theorem updateNode_merge (u : MindNodePatch) (n0 : MindNode) (pre post : List MindNode)
    (h1 : ∀ n ∈ pre, ¬ u.id = some n.id) (h2 : u.id = some n0.id) :
    updateNodeStep u (pre ++ n0 :: post) = pre ++ mergeNode n0 u :: post ∧
      (mergeNode n0 u).id = n0.id ∧
      (u.label = none → (mergeNode n0 u).label = n0.label) ∧
      (u.type = none → (mergeNode n0 u).type = n0.type) ∧
      (u.description = none → (mergeNode n0 u).description = n0.description) ∧
      (u.icon = none → (mergeNode n0 u).icon = n0.icon) ∧
      (u.details = none → (mergeNode n0 u).details = n0.details) ∧
      (u.date = none → (mergeNode n0 u).date = n0.date) ∧
      (u.reminderDate = none → (mergeNode n0 u).reminderDate = n0.reminderDate) ∧
      (u.isCompleted = none → (mergeNode n0 u).isCompleted = n0.isCompleted) ∧
      (u.priority = none → (mergeNode n0 u).priority = n0.priority) ∧
      (u.x = none → (mergeNode n0 u).x = n0.x) ∧
      (u.y = none → (mergeNode n0 u).y = n0.y) ∧
      (∀ s, u.label = some s → (mergeNode n0 u).label = s) := by
  refine ⟨?_, mergeNode_id h2, ?_, ?_, ?_, ?_, ?_, ?_, ?_, ?_, ?_, ?_, ?_, ?_⟩
  · induction pre with
    | nil => simp [updateNodeStep, h2]
    | cons n pre ih =>
      simp only [List.cons_append, updateNodeStep]
      rw [if_neg (h1 n (by simp))]
      exact congrArg (List.cons n) (ih fun n hn => h1 n (by simp [hn]))
  all_goals first
    | exact fun s h => by simp [mergeNode, h]
    | exact fun h => by simp [mergeNode, ovr, h]

/-- The node of the update-preservation scenario of the spec. -/
def exNodeX : MindNode := { id := "X", label := "L1", type := "concept", description := "D" }

/-- The partial update of the update-preservation scenario of the spec. -/
def exPatchX : MindNodePatch := { id := some "X", label := some "L2" }

/-- Witness for C6: updating node X with only a new label yields exactly
the node with label "L2" and every other field kept. -/
theorem updateNode_merge_witness :
    updateNodeStep exPatchX ([] ++ exNodeX :: []) = [] ++ mergeNode exNodeX exPatchX :: [] ∧
      mergeNode exNodeX exPatchX =
        { id := "X", label := "L2", type := "concept", description := "D" } :=
  ⟨(updateNode_merge exPatchX exNodeX [] [] (by decide) rfl).1, by decide⟩

/-- Unfolding equation of the add loop. -/
lemma applyAdds_nil (ns : List MindNode) : applyAdds [] ns = ns := rfl

/-- Unfolding equation of the add loop. -/
lemma applyAdds_cons (a : MindNode) (A : List MindNode) (ns : List MindNode) :
    applyAdds (a :: A) ns = applyAdds A (addNodeStep ns a) := rfl

/-- Unfolding equation of the update loop. -/
lemma applyUpdates_nil (ns : List MindNode) : applyUpdates [] ns = ns := rfl

/-- Unfolding equation of the update loop. -/
lemma applyUpdates_cons (u : MindNodePatch) (U : List MindNodePatch) (ns : List MindNode) :
    applyUpdates (u :: U) ns = applyUpdates U (updateNodeStep u ns) := rfl

/-- Unfolding equation of the edge loop. -/
lemma applyEdgeAdds_nil (es : List MindEdge) : applyEdgeAdds [] es = es := rfl

/-- Unfolding equation of the edge loop. -/
lemma applyEdgeAdds_cons (e : MindEdge) (E : List MindEdge) (es : List MindEdge) :
    applyEdgeAdds (e :: E) es = applyEdgeAdds E (addEdgeStep es e) := rfl

/-- Positive branch of the duplicate check of the add loop. -/
lemma addNodeStep_pos {ns : List MindNode} {a : MindNode}
    (h : ∃ n ∈ ns, n.id = a.id) : addNodeStep ns a = ns := if_pos h

/-- Negative branch of the duplicate check of the add loop. -/
lemma addNodeStep_neg {ns : List MindNode} {a : MindNode}
    (h : ¬ ∃ n ∈ ns, n.id = a.id) : addNodeStep ns a = ns ++ [a] := if_neg h

/-- Positive branch of the duplicate check of the edge loop. -/
lemma addEdgeStep_pos {es : List MindEdge} {e : MindEdge}
    (h : ∃ e0 ∈ es, e0.id = e.id) : addEdgeStep es e = es := if_pos h

/-- Negative branch of the duplicate check of the edge loop. -/
lemma addEdgeStep_neg {es : List MindEdge} {e : MindEdge}
    (h : ¬ ∃ e0 ∈ es, e0.id = e.id) : addEdgeStep es e = es ++ [e] := if_neg h

/-- The id list of an appended node list. -/
lemma nodeIds_append (l1 l2 : List MindNode) :
    nodeIds (l1 ++ l2) = nodeIds l1 ++ nodeIds l2 := List.map_append _ _ _

/-- The id list of an appended edge list. -/
lemma edgeIds_append (l1 l2 : List MindEdge) :
    edgeIds (l1 ++ l2) = edgeIds l1 ++ edgeIds l2 := List.map_append _ _ _

/-- The add loop appends to the store a sublist of the proposal whose ids
were all absent from the initial store. -/
lemma applyAdds_append (A : List MindNode) :
    ∀ ns : List MindNode, ∃ ex, applyAdds A ns = ns ++ ex ∧
      ∀ b ∈ ex, b ∈ A ∧ b.id ∉ nodeIds ns := by
  induction A with
  | nil => exact fun ns => ⟨[], by simp [applyAdds_nil], by simp⟩
  | cons a A ih =>
    intro ns
    rw [applyAdds_cons]
    by_cases h : ∃ n ∈ ns, n.id = a.id
    · rw [addNodeStep_pos h]
      obtain ⟨ex, hex, hsub⟩ := ih ns
      exact ⟨ex, hex, fun b hb => ⟨List.mem_cons_of_mem _ (hsub b hb).1, (hsub b hb).2⟩⟩
    · rw [addNodeStep_neg h]
      obtain ⟨ex, hex, hsub⟩ := ih (ns ++ [a])
      refine ⟨a :: ex, by rw [hex]; simp, ?_⟩
      intro b hb
      rcases List.mem_cons.mp hb with rfl | hb
      · exact ⟨List.mem_cons_self _ _, fun hx => h (mem_nodeIds.mp hx)⟩
      · refine ⟨List.mem_cons_of_mem _ (hsub b hb).1, fun hx => (hsub b hb).2 ?_⟩
        rw [nodeIds_append]
        exact List.mem_append_left _ hx

/-- Nodes already in the store survive the add loop. -/
lemma mem_applyAdds (A : List MindNode) {a : MindNode} {ns : List MindNode}
    (ha : a ∈ ns) : a ∈ applyAdds A ns := by
  obtain ⟨ex, hex, -⟩ := applyAdds_append A ns
  rw [hex]
  exact List.mem_append_left _ ha

/-- Ids already in the store survive the add loop. -/
lemma mem_nodeIds_applyAdds (A : List MindNode) {x : String} {ns : List MindNode}
    (hx : x ∈ nodeIds ns) : x ∈ nodeIds (applyAdds A ns) := by
  obtain ⟨ex, hex, -⟩ := applyAdds_append A ns
  rw [hex, nodeIds_append]
  exact List.mem_append_left _ hx

/-- After the add loop, the id of every proposed node is present (it was
either already there or has just been pushed). -/
lemma exists_id_applyAdds {a : MindNode} :
    ∀ (A : List MindNode) (ns : List MindNode), a ∈ A →
      a.id ∈ nodeIds (applyAdds A ns)
  | b :: A, ns, ha => by
    rw [applyAdds_cons]
    rcases List.mem_cons.mp ha with rfl | ha
    · by_cases h : ∃ n ∈ ns, n.id = a.id
      · rw [addNodeStep_pos h]
        exact mem_nodeIds_applyAdds A (mem_nodeIds.mpr h)
      · rw [addNodeStep_neg h]
        exact mem_nodeIds_applyAdds A (by rw [nodeIds_append]; simp [nodeIds])
    · exact exists_id_applyAdds A (addNodeStep ns b) ha

/-- The add loop is a no-op when every proposed id is already present. -/
lemma applyAdds_skip :
    ∀ (A : List MindNode) (ns : List MindNode),
      (∀ a ∈ A, a.id ∈ nodeIds ns) → applyAdds A ns = ns
  | [], _, _ => rfl
  | a :: A, ns, h => by
    rw [applyAdds_cons, addNodeStep_pos (mem_nodeIds.mp (h a (List.mem_cons_self _ _)))]
    exact applyAdds_skip A ns fun b hb => h b (List.mem_cons_of_mem _ hb)

/-- A proposed node with a fresh id that no other proposal entry shares is
pushed by the add loop, whatever its fields hold. -/
lemma mem_applyAdds_of_fresh {a : MindNode} :
    ∀ (A : List MindNode) (ns : List MindNode), a ∈ A → a.id ∉ nodeIds ns →
      (∀ b ∈ A, b.id = a.id → b = a) → a ∈ applyAdds A ns
  | b :: A, ns, ha, hf, huniq => by
    rw [applyAdds_cons]
    by_cases hb : b.id = a.id
    · have : b = a := huniq b (List.mem_cons_self _ _) hb
      subst this
      rw [addNodeStep_neg fun hex => hf (mem_nodeIds.mpr hex)]
      exact mem_applyAdds A (by simp)
    · rcases List.mem_cons.mp ha with rfl | ha
      · exact absurd rfl hb
      · refine mem_applyAdds_of_fresh A (addNodeStep ns b) ha ?_
          fun c hc => huniq c (List.mem_cons_of_mem _ hc)
        by_cases hp : ∃ n ∈ ns, n.id = b.id
        · rwa [addNodeStep_pos hp]
        · rw [addNodeStep_neg hp, nodeIds_append]
          simp only [List.mem_append, nodeIds, List.map_cons, List.map_nil,
            List.mem_cons, List.not_mem_nil, or_false]
          rintro (hx | hx)
          · exact hf hx
          · exact hb hx.symm

/-- The add loop never changes how often an already-present id occurs. -/
lemma count_nodeIds_applyAdds {x : String} (A : List MindNode) (ns : List MindNode)
    (hx : x ∈ nodeIds ns) :
    (nodeIds (applyAdds A ns)).count x = (nodeIds ns).count x := by
  obtain ⟨ex, hex, hsub⟩ := applyAdds_append A ns
  rw [hex, nodeIds_append, List.count_append]
  have hz : x ∉ nodeIds ex := by
    rw [mem_nodeIds]
    rintro ⟨b, hb, rfl⟩
    exact (hsub b hb).2 hx
  rw [List.count_eq_zero.mpr hz, Nat.add_zero]

/-- A node untouched by every update of the loop stays in the list. -/
lemma mem_updateNodeStep_of_ne {a : MindNode} {u : MindNodePatch}
    (h : ¬ u.id = some a.id) :
    ∀ ns : List MindNode, a ∈ ns → a ∈ updateNodeStep u ns
  | n :: rest, ha => by
    simp only [updateNodeStep]
    by_cases hc : u.id = some n.id
    · rw [if_pos hc]
      rcases List.mem_cons.mp ha with rfl | hmem
      · exact absurd hc h
      · exact List.mem_cons_of_mem _ hmem
    · rw [if_neg hc]
      rcases List.mem_cons.mp ha with rfl | hmem
      · exact List.mem_cons_self _ _
      · exact List.mem_cons_of_mem _ (mem_updateNodeStep_of_ne h rest hmem)

/-- A node whose id no update of the proposal targets survives the whole
update loop untouched. -/
lemma mem_applyUpdates_of_ne {a : MindNode} :
    ∀ (U : List MindNodePatch) (ns : List MindNode),
      (∀ u ∈ U, ¬ u.id = some a.id) → a ∈ ns → a ∈ applyUpdates U ns
  | [], _, _, ha => ha
  | u :: U, ns, h, ha => by
    rw [applyUpdates_cons]
    exact mem_applyUpdates_of_ne U _ (fun v hv => h v (List.mem_cons_of_mem _ hv))
      (mem_updateNodeStep_of_ne (h u (List.mem_cons_self _ _)) ns ha)

/-- One update never changes the id list of the store. -/
lemma nodeIds_updateNodeStep (u : MindNodePatch) :
    ∀ ns : List MindNode, nodeIds (updateNodeStep u ns) = nodeIds ns
  | [] => rfl
  | n :: rest => by
    simp only [updateNodeStep]
    by_cases hc : u.id = some n.id
    · rw [if_pos hc]
      simp [nodeIds, mergeNode_id hc]
    · rw [if_neg hc]
      simp only [nodeIds, List.map_cons]
      rw [show (updateNodeStep u rest).map MindNode.id = rest.map MindNode.id from
        nodeIds_updateNodeStep u rest]

/-- The update loop never changes the id list of the store. -/
lemma nodeIds_applyUpdates :
    ∀ (U : List MindNodePatch) (ns : List MindNode),
      nodeIds (applyUpdates U ns) = nodeIds ns
  | [], _ => rfl
  | u :: U, ns => by
    rw [applyUpdates_cons, nodeIds_applyUpdates U _, nodeIds_updateNodeStep]

/-- The edge loop appends to the store a sublist of the proposal whose ids
were all absent from the initial store. -/
lemma applyEdgeAdds_append (E : List MindEdge) :
    ∀ es : List MindEdge, ∃ ex, applyEdgeAdds E es = es ++ ex ∧
      ∀ b ∈ ex, b ∈ E ∧ b.id ∉ edgeIds es := by
  induction E with
  | nil => exact fun es => ⟨[], by simp [applyEdgeAdds_nil], by simp⟩
  | cons e E ih =>
    intro es
    rw [applyEdgeAdds_cons]
    by_cases h : ∃ e0 ∈ es, e0.id = e.id
    · rw [addEdgeStep_pos h]
      obtain ⟨ex, hex, hsub⟩ := ih es
      exact ⟨ex, hex, fun b hb => ⟨List.mem_cons_of_mem _ (hsub b hb).1, (hsub b hb).2⟩⟩
    · rw [addEdgeStep_neg h]
      obtain ⟨ex, hex, hsub⟩ := ih (es ++ [e])
      refine ⟨e :: ex, by rw [hex]; simp, ?_⟩
      intro b hb
      rcases List.mem_cons.mp hb with rfl | hb
      · exact ⟨List.mem_cons_self _ _, fun hx => h (mem_edgeIds.mp hx)⟩
      · refine ⟨List.mem_cons_of_mem _ (hsub b hb).1, fun hx => (hsub b hb).2 ?_⟩
        rw [edgeIds_append]
        exact List.mem_append_left _ hx

/-- Edges already in the store survive the edge loop. -/
lemma mem_applyEdgeAdds (E : List MindEdge) {e : MindEdge} {es : List MindEdge}
    (he : e ∈ es) : e ∈ applyEdgeAdds E es := by
  obtain ⟨ex, hex, -⟩ := applyEdgeAdds_append E es
  rw [hex]
  exact List.mem_append_left _ he

/-- Edge ids already in the store survive the edge loop. -/
lemma mem_edgeIds_applyEdgeAdds (E : List MindEdge) {x : String} {es : List MindEdge}
    (hx : x ∈ edgeIds es) : x ∈ edgeIds (applyEdgeAdds E es) := by
  obtain ⟨ex, hex, -⟩ := applyEdgeAdds_append E es
  rw [hex, edgeIds_append]
  exact List.mem_append_left _ hx

/-- After the edge loop, the id of every proposed edge is present. -/
lemma exists_id_applyEdgeAdds {e : MindEdge} :
    ∀ (E : List MindEdge) (es : List MindEdge), e ∈ E →
      e.id ∈ edgeIds (applyEdgeAdds E es)
  | b :: E, es, he => by
    rw [applyEdgeAdds_cons]
    rcases List.mem_cons.mp he with rfl | he
    · by_cases h : ∃ e0 ∈ es, e0.id = e.id
      · rw [addEdgeStep_pos h]
        exact mem_edgeIds_applyEdgeAdds E (mem_edgeIds.mpr h)
      · rw [addEdgeStep_neg h]
        exact mem_edgeIds_applyEdgeAdds E (by rw [edgeIds_append]; simp [edgeIds])
    · exact exists_id_applyEdgeAdds E (addEdgeStep es b) he

/-- The edge loop is a no-op when every proposed edge id is present. -/
lemma applyEdgeAdds_skip :
    ∀ (E : List MindEdge) (es : List MindEdge),
      (∀ e ∈ E, e.id ∈ edgeIds es) → applyEdgeAdds E es = es
  | [], _, _ => rfl
  | e :: E, es, h => by
    rw [applyEdgeAdds_cons, addEdgeStep_pos (mem_edgeIds.mp (h e (List.mem_cons_self _ _)))]
    exact applyEdgeAdds_skip E es fun b hb => h b (List.mem_cons_of_mem _ hb)

/-- When the proposed edges carry fresh, pairwise distinct ids, the edge
loop appends every one of them in order. -/
lemma applyEdgeAdds_all_fresh :
    ∀ (E : List MindEdge) (es : List MindEdge),
      (∀ e ∈ E, e.id ∉ edgeIds es) → (edgeIds E).Nodup →
      applyEdgeAdds E es = es ++ E
  | [], es, _, _ => by simp [applyEdgeAdds_nil]
  | e :: E, es, hf, hd => by
    rw [applyEdgeAdds_cons,
      addEdgeStep_neg fun hex => hf e (List.mem_cons_self _ _) (mem_edgeIds.mpr hex)]
    have hd' : (edgeIds E).Nodup ∧ e.id ∉ edgeIds E := by
      have : edgeIds (e :: E) = e.id :: edgeIds E := rfl
      rw [this, List.nodup_cons] at hd
      exact ⟨hd.2, hd.1⟩
    rw [applyEdgeAdds_all_fresh E (es ++ [e]) ?_ hd'.1]
    · simp
    · intro b hb
      rw [edgeIds_append]
      simp only [List.mem_append, edgeIds, List.map_cons, List.map_nil,
        List.mem_cons, List.not_mem_nil, or_false]
      rintro (hx | hx)
      · exact hf b (List.mem_cons_of_mem _ hb) hx
      · exact hd'.2 (hx ▸ mem_edgeIds.mpr ⟨b, hb, rfl⟩)

/-- One add step keeps the node id list duplicate-free. -/
lemma nodup_nodeIds_addNodeStep {ns : List MindNode} {a : MindNode}
    (h : (nodeIds ns).Nodup) : (nodeIds (addNodeStep ns a)).Nodup := by
  by_cases hp : ∃ n ∈ ns, n.id = a.id
  · rwa [addNodeStep_pos hp]
  · rw [addNodeStep_neg hp, nodeIds_append]
    have hfresh : a.id ∉ nodeIds ns := fun hx => hp (mem_nodeIds.mp hx)
    simp [List.nodup_append, h, hfresh, nodeIds]
    exact ⟨h, fun x hx hxe => hp ⟨x, hx, hxe⟩⟩

/-- The add loop keeps the node id list duplicate-free. -/
lemma nodup_nodeIds_applyAdds :
    ∀ (A : List MindNode) (ns : List MindNode),
      (nodeIds ns).Nodup → (nodeIds (applyAdds A ns)).Nodup
  | [], _, h => h
  | _ :: A, _, h => by
    rw [applyAdds_cons]
    exact nodup_nodeIds_applyAdds A _ (nodup_nodeIds_addNodeStep h)

/-- One edge add step keeps the edge id list duplicate-free. -/
lemma nodup_edgeIds_addEdgeStep {es : List MindEdge} {e : MindEdge}
    (h : (edgeIds es).Nodup) : (edgeIds (addEdgeStep es e)).Nodup := by
  by_cases hp : ∃ e0 ∈ es, e0.id = e.id
  · rwa [addEdgeStep_pos hp]
  · rw [addEdgeStep_neg hp, edgeIds_append]
    have hfresh : e.id ∉ edgeIds es := fun hx => hp (mem_edgeIds.mp hx)
    simp [List.nodup_append, h, hfresh, edgeIds]
    exact ⟨h, fun x hx hxe => hp ⟨x, hx, hxe⟩⟩

/-- The edge loop keeps the edge id list duplicate-free. -/
lemma nodup_edgeIds_applyEdgeAdds :
    ∀ (E : List MindEdge) (es : List MindEdge),
      (edgeIds es).Nodup → (edgeIds (applyEdgeAdds E es)).Nodup
  | [], _, h => h
  | _ :: E, _, h => by
    rw [applyEdgeAdds_cons]
    exact nodup_edgeIds_applyEdgeAdds E _ (nodup_edgeIds_addEdgeStep h)

/-- Applying a whole proposal keeps both id lists duplicate-free. -/
lemma nodup_handleApplyChanges (p : MindMapChangeProposal) (m : MindMapData)
    (h1 : (nodeIds m.nodes).Nodup) (h2 : (edgeIds m.edges).Nodup) :
    (nodeIds (handleApplyChanges p m).nodes).Nodup ∧
      (edgeIds (handleApplyChanges p m).edges).Nodup := by
  constructor
  · show (nodeIds (applyUpdates _ (applyAdds _ _))).Nodup
    rw [nodeIds_applyUpdates]
    exact nodup_nodeIds_applyAdds _ _ h1
  · exact nodup_edgeIds_applyEdgeAdds _ _ h2

/-- A mutation of the graph store: a direct node add, a direct edge add, or
the application of a whole change proposal (the three ways nodes and edges
enter the store in the code). -/
inductive StoreOp where
  | addN : MindNode → StoreOp
  | addE : MindEdge → StoreOp
  | applyP : MindMapChangeProposal → StoreOp
deriving DecidableEq

/-- Apply one store mutation. -/
def applyOp (m : MindMapData) : StoreOp → MindMapData
  | .addN n => { m with nodes := addNodeStep m.nodes n }
  | .addE e => { m with edges := addEdgeStep m.edges e }
  | .applyP p => handleApplyChanges p m

/-- Apply a sequence of store mutations in order. -/
def applyOps (ops : List StoreOp) (m : MindMapData) : MindMapData :=
  ops.foldl applyOp m

/-- One store mutation keeps both id lists duplicate-free. -/
lemma nodup_applyOp (m : MindMapData) (op : StoreOp)
    (h1 : (nodeIds m.nodes).Nodup) (h2 : (edgeIds m.edges).Nodup) :
    (nodeIds (applyOp m op).nodes).Nodup ∧ (edgeIds (applyOp m op).edges).Nodup := by
  cases op with
  | addN n => exact ⟨nodup_nodeIds_addNodeStep h1, h2⟩
  | addE e => exact ⟨h1, nodup_edgeIds_addEdgeStep h2⟩
  | applyP p => exact nodup_handleApplyChanges p m h1 h2

/-- A sequence of store mutations keeps both id lists duplicate-free. -/
lemma nodup_applyOps :
    ∀ (ops : List StoreOp) (m : MindMapData),
      (nodeIds m.nodes).Nodup → (edgeIds m.edges).Nodup →
      (nodeIds (applyOps ops m).nodes).Nodup ∧ (edgeIds (applyOps ops m).edges).Nodup
  | [], _, h1, h2 => ⟨h1, h2⟩
  | op :: ops, m, h1, h2 =>
    nodup_applyOps ops (applyOp m op) (nodup_applyOp m op h1 h2).1 (nodup_applyOp m op h1 h2).2

/-- C9: starting from a store with pairwise distinct node ids and edge ids,
any sequence of direct adds and proposal applications leaves both id lists
free of duplicates, repeated ids inside a single proposal included. -/
theorem no_duplicate_ids (ops : List StoreOp) (m : MindMapData)
    (h1 : (nodeIds m.nodes).Nodup) (h2 : (edgeIds m.edges).Nodup) :
    (nodeIds (applyOps ops m).nodes).Nodup ∧ (edgeIds (applyOps ops m).edges).Nodup :=
  nodup_applyOps ops m h1 h2

/-- The gym node of the seed-graph merge scenario of the spec. -/
def gymNode : MindNode := { id := "gym", label := "Gym", type := "resource", description := "" }

/-- The gym edge of the seed-graph merge scenario of the spec. -/
def gymEdge : MindEdge := { id := "e3", source := "health", target := "gym" }

/-- The proposal of the seed-graph merge scenario of the spec. -/
def gymProposal : MindMapChangeProposal :=
  { nodesToAdd := [gymNode], nodesToUpdate := [], edgesToAdd := [gymEdge],
    explanation := "Connect gym under health." }

/-- A proposal whose nodesToAdd list itself repeats an id. -/
def dupListProposal : MindMapChangeProposal :=
  { nodesToAdd := [gymNode, gymNode, { gymNode with label := "Gym clone" }],
    nodesToUpdate := [], edgesToAdd := [gymEdge, gymEdge], explanation := "" }

/-- A mutation sequence replaying proposals and direct adds, with repeated
ids inside one proposal. -/
def demoOps : List StoreOp :=
  [.applyP gymProposal, .applyP dupListProposal, .addN gymNode, .addE gymEdge]

/-- Witness for C9: the seed store has distinct ids and keeps them distinct
across the replaying mutation sequence. -/
theorem no_duplicate_ids_witness :
    (nodeIds INITIAL_DATA.nodes).Nodup ∧ (edgeIds INITIAL_DATA.edges).Nodup ∧
      (nodeIds (applyOps demoOps INITIAL_DATA).nodes).Nodup ∧
      (edgeIds (applyOps demoOps INITIAL_DATA).edges).Nodup :=
  ⟨by decide, by decide,
    (no_duplicate_ids demoOps INITIAL_DATA (by decide) (by decide)).1,
    (no_duplicate_ids demoOps INITIAL_DATA (by decide) (by decide)).2⟩

/-- A node re-adding the id "work" with different fields. -/
def workReAdd : MindNode :=
  { id := "work", label := "Work v2", type := "concept", description := "other" }

/-- An update entry targeting the id "work". -/
def workPatch : MindNodePatch := { id := some "work", label := some "Changed" }

/-- A proposal that both re-adds and updates the node "work". -/
def dupAddProposal : MindMapChangeProposal :=
  { nodesToAdd := [workReAdd], nodesToUpdate := [workPatch], edgesToAdd := [],
    explanation := "" }

/-- Counterexample for C8: a proposal that re-adds the existing id "work"
while also carrying an update for it leaves the "work" node with a changed
label, so applying such a proposal does not leave every field of the
existing node unchanged. -/
theorem duplicate_add_cex :
    (∃ n ∈ INITIAL_DATA.nodes, n.id = "work" ∧ n.label = "Work") ∧
      workReAdd ∈ dupAddProposal.nodesToAdd ∧ workReAdd.id = "work" ∧
      ∀ n ∈ (handleApplyChanges dupAddProposal INITIAL_DATA).nodes,
        n.id = "work" → n.label = "Changed" := by decide

/-- C8 amended: a nodesToAdd entry whose id already exists is not inserted
(the id count is unchanged), and provided no nodesToUpdate entry of the
same proposal targets that id, the existing node keeps every field. -/
theorem duplicate_add_ignored (p : MindMapChangeProposal) (m : MindMapData)
    (a n0 : MindNode) (ha : a ∈ p.nodesToAdd) (hn0 : n0 ∈ m.nodes)
    (hid : n0.id = a.id)
    (hupd : ∀ u ∈ p.nodesToUpdate, ¬ u.id = some n0.id) :
    n0 ∈ (handleApplyChanges p m).nodes ∧
      (nodeIds (handleApplyChanges p m).nodes).count a.id =
        (nodeIds m.nodes).count a.id := by
  constructor
  · exact mem_applyUpdates_of_ne _ _ hupd (mem_applyAdds _ hn0)
  · show (nodeIds (applyUpdates _ (applyAdds _ _))).count a.id = _
    rw [nodeIds_applyUpdates]
    exact count_nodeIds_applyAdds _ _ (mem_nodeIds.mpr ⟨n0, hn0, hid⟩)

/-- A proposal that only re-adds the existing node "work". -/
def pureReAddProposal : MindMapChangeProposal :=
  { nodesToAdd := [workReAdd], nodesToUpdate := [], edgesToAdd := [], explanation := "" }

/-- The "work" node of the seed graph. -/
def workNode : MindNode :=
  { id := "work", label := "Work", type := "concept", icon := some "💼",
    description := "Professional life and goals.", x := some 150, y := some 50 }

/-- Witness for C8: re-adding "work" leaves the original "work" node in the
store with all fields intact and does not insert a second copy. -/
theorem duplicate_add_ignored_witness :
    workNode ∈ (handleApplyChanges pureReAddProposal INITIAL_DATA).nodes ∧
      (nodeIds (handleApplyChanges pureReAddProposal INITIAL_DATA).nodes).count "work" =
        (nodeIds INITIAL_DATA.nodes).count "work" := by
  have h := duplicate_add_ignored pureReAddProposal INITIAL_DATA workReAdd workNode
    (by decide) (by decide) rfl (by decide)
  exact ⟨h.1, h.2⟩

/-- A malformed node: type outside the five-value enum and priority outside
the three-value enum. -/
def alienNode : MindNode :=
  { id := "alien1", label := "Alien", type := "alien", description := "",
    priority := some "ultra" }

/-- A proposal carrying one malformed and one well-formed node to add. -/
def malformedProposal : MindMapChangeProposal :=
  { nodesToAdd := [alienNode, gymNode], nodesToUpdate := [], edgesToAdd := [],
    explanation := "" }

/-- Counterexample for C4: the reconciler performs no validation, so the
entry with an out-of-enum type and priority is inserted into the store
rather than rejected. -/
theorem malformed_inserted_cex :
    ¬ WellFormedNode alienNode ∧
      alienNode ∈ (handleApplyChanges malformedProposal INITIAL_DATA).nodes := by decide

/-- C4 amended: the reconciler applies entries by id-presence alone and
never validates enum fields; any nodesToAdd entry with a fresh id, unique
in the proposal and untargeted by its updates, is inserted as-is, whether
well-formed or malformed. -/
theorem apply_no_validation (p : MindMapChangeProposal) (m : MindMapData) (a : MindNode)
    (ha : a ∈ p.nodesToAdd) (hf : a.id ∉ nodeIds m.nodes)
    (huniq : ∀ b ∈ p.nodesToAdd, b.id = a.id → b = a)
    (hupd : ∀ u ∈ p.nodesToUpdate, ¬ u.id = some a.id) :
    a ∈ (handleApplyChanges p m).nodes :=
  mem_applyUpdates_of_ne _ _ hupd (mem_applyAdds_of_fresh _ _ ha hf huniq)

/-- Witness for C4 amended: the malformed entry and the well-formed entry
of the same proposal are both inserted. -/
theorem apply_no_validation_witness :
    alienNode ∈ (handleApplyChanges malformedProposal INITIAL_DATA).nodes ∧
      gymNode ∈ (handleApplyChanges malformedProposal INITIAL_DATA).nodes :=
  ⟨apply_no_validation malformedProposal INITIAL_DATA alienNode (by decide) (by decide)
      (by decide) (by decide),
    apply_no_validation malformedProposal INITIAL_DATA gymNode (by decide) (by decide)
      (by decide) (by decide)⟩

/-- A proposal whose edge references two node ids absent from the store. -/
def danglingProposal : MindMapChangeProposal :=
  { nodesToAdd := [], nodesToUpdate := [],
    edgesToAdd := [{ id := "e9", source := "ghost", target := "ghost2" }],
    explanation := "" }

/-- Counterexample for C1: edge insertion checks only the edge id, so a
proposal edge naming nonexistent nodes leaves the store with a dangling
edge. -/
theorem apply_dangling_edge_cex :
    ¬ NoDangling (handleApplyChanges danglingProposal INITIAL_DATA) := by decide

/-- C1 amended: when the store has no dangling edges and the proposal is
itself well-formed for the store (every proposed edge endpoint names an
existing or proposed node id, proposed edge ids are fresh and pairwise
distinct, and every genuinely new node is an endpoint of some proposed
edge), the reconciled store has no dangling edges and every newly added
node has at least one incident edge; the code itself checks none of this. -/
theorem apply_preserves_integrity (p : MindMapChangeProposal) (m : MindMapData)
    (h0 : NoDangling m)
    (h1 : ∀ e ∈ p.edgesToAdd,
      (e.source ∈ nodeIds m.nodes ∨ e.source ∈ nodeIds p.nodesToAdd) ∧
      (e.target ∈ nodeIds m.nodes ∨ e.target ∈ nodeIds p.nodesToAdd))
    (h2 : ∀ e ∈ p.edgesToAdd, e.id ∉ edgeIds m.edges)
    (h3 : (edgeIds p.edgesToAdd).Nodup)
    (h4 : ∀ a ∈ p.nodesToAdd, a.id ∉ nodeIds m.nodes →
      ∃ e ∈ p.edgesToAdd, e.source = a.id ∨ e.target = a.id) :
    NoDangling (handleApplyChanges p m) ∧
      ∀ a ∈ p.nodesToAdd, a.id ∉ nodeIds m.nodes →
        ∃ e ∈ (handleApplyChanges p m).edges, e.source = a.id ∨ e.target = a.id := by
  have hnodes : ∀ x : String, x ∈ nodeIds m.nodes ∨ x ∈ nodeIds p.nodesToAdd →
      x ∈ nodeIds (handleApplyChanges p m).nodes := by
    intro x hx
    show x ∈ nodeIds (applyUpdates _ (applyAdds _ _))
    rw [nodeIds_applyUpdates]
    rcases hx with hx | hx
    · exact mem_nodeIds_applyAdds _ hx
    · obtain ⟨a, haA, rfl⟩ := mem_nodeIds.mp hx
      exact exists_id_applyAdds _ _ haA
  have hedges : (handleApplyChanges p m).edges = m.edges ++ p.edgesToAdd :=
    applyEdgeAdds_all_fresh _ _ h2 h3
  constructor
  · intro e he
    rw [hedges] at he
    rcases List.mem_append.mp he with he | he
    · exact ⟨hnodes _ (Or.inl (h0 e he).1), hnodes _ (Or.inl (h0 e he).2)⟩
    · exact ⟨hnodes _ (h1 e he).1, hnodes _ (h1 e he).2⟩
  · intro a haA hfresh
    obtain ⟨e, heE, hinc⟩ := h4 a haA hfresh
    exact ⟨e, by rw [hedges]; exact List.mem_append_right _ heE, hinc⟩

/-- Witness for C1 amended: the seed-graph merge scenario of the spec
satisfies the hypotheses, and after it the store is dangling-free and the
new gym node is connected. -/
theorem apply_preserves_integrity_witness :
    NoDangling INITIAL_DATA ∧
      NoDangling (handleApplyChanges gymProposal INITIAL_DATA) ∧
      ∀ a ∈ gymProposal.nodesToAdd, a.id ∉ nodeIds INITIAL_DATA.nodes →
        ∃ e ∈ (handleApplyChanges gymProposal INITIAL_DATA).edges,
          e.source = a.id ∨ e.target = a.id :=
  ⟨by decide,
    (apply_preserves_integrity gymProposal INITIAL_DATA (by decide) (by decide)
      (by decide) (by decide) (by decide)).1,
    (apply_preserves_integrity gymProposal INITIAL_DATA (by decide) (by decide)
      (by decide) (by decide) (by decide)).2⟩

/-- The stale task held by the task list before the edit. -/
def staleTask : Task :=
  { id := "t1", title := "Old", urgency := "low", completed := false, nodeId := "n1" }

/-- App state before the edit: node n1 in the graph and its stale
projection in the task list. -/
def exAppState : AppState := { mindMap := exStore, tasks := [staleTask] }

/-- Counterexample for C3: after saving the edit through
updateTaskInMindMap, the local task list still holds only the stale task;
nowhere does it contain the new title or the completion flag. -/
theorem taskEdit_tasklist_cex :
    (appUpdateTaskInMindMap exTaskT exAppState).tasks = [staleTask] ∧
      ∀ tk ∈ (appUpdateTaskInMindMap exTaskT exAppState).tasks,
        tk.title ≠ "New" ∧ tk.completed = false := by decide

/-- C3 amended: updateTaskInMindMap writes the edit onto the matching graph
node only; the task list state is left unchanged by the edit and can
reflect it only through a later resync. -/
theorem taskEdit_graph_only (t : Task) (s : AppState) (n : MindNode)
    (hmem : n ∈ s.mindMap.nodes) (hid : n.id = t.nodeId) :
    (appUpdateTaskInMindMap t s).tasks = s.tasks ∧
      writeBack t n ∈ (appUpdateTaskInMindMap t s).mindMap.nodes := by
  refine ⟨rfl, ?_⟩
  show writeBack t n ∈ (updateTaskInMindMap t s.mindMap).nodes
  simp only [updateTaskInMindMap]
  exact List.mem_map.mpr ⟨n, hmem, if_pos hid⟩

/-- Witness for C3 amended: the concrete edit reaches the n1 node while the
task list stays as it was. -/
theorem taskEdit_graph_only_witness :
    (appUpdateTaskInMindMap exTaskT exAppState).tasks = exAppState.tasks ∧
      writeBack exTaskT exNodeN1 ∈
        (appUpdateTaskInMindMap exTaskT exAppState).mindMap.nodes :=
  taskEdit_graph_only exTaskT exAppState exNodeN1 (by decide) rfl

/-- Last explicitly set value among a list of optional field values. -/
def lastSet (l : List (Option α)) : Option α :=
  l.foldl (fun acc o => ovr o acc) none

/-- Override by nothing keeps the override. -/
lemma ovr_none_right (o : Option α) : ovr o none = o := by cases o <;> rfl

/-- Override is associative. -/
lemma ovr_assoc (a b c : Option α) : ovr a (ovr b c) = ovr (ovr a b) c := by
  cases a <;> rfl

/-- Default extraction through an override. -/
lemma getD_ovr (a b : Option α) (x : α) : (ovr a b).getD x = a.getD (b.getD x) := by
  cases a <;> rfl

/-- Folding overrides from any start is overriding by the last set value. -/
lemma foldl_ovr_eq : ∀ (l : List (Option α)) (i : Option α),
    l.foldl (fun acc o => ovr o acc) i = ovr (lastSet l) i
  | [], _ => rfl
  | o :: l, i => by
    show l.foldl (fun acc o => ovr o acc) (ovr o i) = ovr (lastSet (o :: l)) i
    have h2 : lastSet (o :: l) = ovr (lastSet l) o := by
      show l.foldl (fun acc o => ovr o acc) (ovr o none) = _
      rw [foldl_ovr_eq l (ovr o none), ovr_none_right]
    rw [foldl_ovr_eq l (ovr o i), h2, ovr_assoc]

/-- Unfolding equation of lastSet. -/
lemma lastSet_cons (o : Option α) (l : List (Option α)) :
    lastSet (o :: l) = ovr (lastSet l) o := by
  show l.foldl (fun acc o => ovr o acc) (ovr o none) = _
  rw [foldl_ovr_eq l (ovr o none), ovr_none_right]

/-- Repeated default extraction is idempotent. -/
lemma getD_getD_self (a : Option α) (x : α) : a.getD (a.getD x) = a.getD x := by
  cases a <;> rfl

/-- Repeated override by the same value is idempotent. -/
lemma ovr_ovr_self (a b : Option α) : ovr a (ovr a b) = ovr a b := by
  cases a <;> rfl

/-- A fold of spread merges acts on every field independently: each field
ends at the last value some update set, or at the original value. -/
lemma foldl_mergeNode_eq :
    ∀ (M : List MindNodePatch) (n : MindNode),
      M.foldl mergeNode n =
        { id := (lastSet (M.map MindNodePatch.id)).getD n.id
          label := (lastSet (M.map MindNodePatch.label)).getD n.label
          type := (lastSet (M.map MindNodePatch.type)).getD n.type
          description := (lastSet (M.map MindNodePatch.description)).getD n.description
          icon := ovr (lastSet (M.map MindNodePatch.icon)) n.icon
          details := ovr (lastSet (M.map MindNodePatch.details)) n.details
          date := ovr (lastSet (M.map MindNodePatch.date)) n.date
          reminderDate := ovr (lastSet (M.map MindNodePatch.reminderDate)) n.reminderDate
          isCompleted := ovr (lastSet (M.map MindNodePatch.isCompleted)) n.isCompleted
          priority := ovr (lastSet (M.map MindNodePatch.priority)) n.priority
          x := ovr (lastSet (M.map MindNodePatch.x)) n.x
          y := ovr (lastSet (M.map MindNodePatch.y)) n.y }
  | [], n => rfl
  | u :: M, n => by
    rw [List.foldl_cons, foldl_mergeNode_eq M (mergeNode n u)]
    simp only [List.map_cons, lastSet_cons]
    ext <;> simp [mergeNode, getD_ovr, ovr_assoc]

/-- Refolding the same merges changes nothing. -/
lemma foldl_mergeNode_idem (M : List MindNodePatch) (n : MindNode) :
    M.foldl mergeNode (M.foldl mergeNode n) = M.foldl mergeNode n := by
  simp only [foldl_mergeNode_eq]
  ext <;> simp [getD_getD_self, ovr_ovr_self]

/-- The updates of the loop that target a given id, in order. -/
def patchesFor (i : String) : List MindNodePatch → List MindNodePatch
  | [] => []
  | u :: U => if u.id = some i then u :: patchesFor i U else patchesFor i U

/-- The updates of the loop that do not target a given id, in order. -/
def patchesNotFor (i : String) : List MindNodePatch → List MindNodePatch
  | [] => []
  | u :: U => if u.id = some i then patchesNotFor i U else u :: patchesNotFor i U

/-- Members of patchesFor carry the id they were selected by. -/
lemma mem_patchesFor {i : String} :
    ∀ {U : List MindNodePatch} {u : MindNodePatch}, u ∈ patchesFor i U → u.id = some i
  | v :: U, u, h => by
    by_cases hc : v.id = some i
    · rw [show patchesFor i (v :: U) = v :: patchesFor i U from by
        simp only [patchesFor]; rw [if_pos hc]] at h
      rcases List.mem_cons.mp h with rfl | h
      · exact hc
      · exact mem_patchesFor h
    · rw [show patchesFor i (v :: U) = patchesFor i U from by
        simp only [patchesFor]; rw [if_neg hc]] at h
      exact mem_patchesFor h

/-- A fold of merges whose updates all target the node's id keeps the id. -/
lemma foldl_mergeNode_id :
    ∀ (M : List MindNodePatch) (n : MindNode),
      (∀ u ∈ M, u.id = some n.id) → (M.foldl mergeNode n).id = n.id
  | [], _, _ => rfl
  | u :: M, n, h => by
    rw [List.foldl_cons]
    have hid : (mergeNode n u).id = n.id := mergeNode_id (h u (List.mem_cons_self _ _))
    rw [foldl_mergeNode_id M (mergeNode n u)
      (fun v hv => by rw [hid]; exact h v (List.mem_cons_of_mem _ hv)), hid]

/-- The update loop over a nonempty store decomposes: the head absorbs, in
order, exactly the updates targeting its id, and the tail sees the rest
(ids never change, so first-match targeting is fixed up front). -/
lemma applyUpdates_cons_decomp :
    ∀ (U : List MindNodePatch) (n : MindNode) (rest : List MindNode),
      applyUpdates U (n :: rest) =
        (patchesFor n.id U).foldl mergeNode n ::
          applyUpdates (patchesNotFor n.id U) rest
  | [], _, _ => rfl
  | u :: U, n, rest => by
    rw [applyUpdates_cons]
    by_cases hc : u.id = some n.id
    · rw [show updateNodeStep u (n :: rest) = mergeNode n u :: rest from by
        simp only [updateNodeStep]; rw [if_pos hc]]
      rw [applyUpdates_cons_decomp U (mergeNode n u) rest, mergeNode_id hc]
      simp only [patchesFor, patchesNotFor]
      rw [if_pos hc, if_pos hc, List.foldl_cons]
    · rw [show updateNodeStep u (n :: rest) = n :: updateNodeStep u rest from by
        simp only [updateNodeStep]; rw [if_neg hc]]
      rw [applyUpdates_cons_decomp U n (updateNodeStep u rest)]
      simp only [patchesFor, patchesNotFor]
      rw [if_neg hc, if_neg hc, applyUpdates_cons]

/-- The update loop sends the empty store to itself. -/
lemma applyUpdates_nil_list : ∀ U : List MindNodePatch, applyUpdates U [] = []
  | [] => rfl
  | _ :: U => applyUpdates_nil_list U

/-- Replaying the whole update loop a second time changes nothing. -/
lemma applyUpdates_idem :
    ∀ (ns : List MindNode) (U : List MindNodePatch),
      applyUpdates U (applyUpdates U ns) = applyUpdates U ns
  | [], U => by rw [applyUpdates_nil_list U, applyUpdates_nil_list U]
  | n :: rest, U => by
    rw [applyUpdates_cons_decomp U n rest]
    have hid : ((patchesFor n.id U).foldl mergeNode n).id = n.id :=
      foldl_mergeNode_id _ n fun u hu => mem_patchesFor hu
    rw [applyUpdates_cons_decomp U _ _, hid, foldl_mergeNode_idem,
      applyUpdates_idem rest (patchesNotFor n.id U)]

/-- C2: applying the same proposal twice in succession yields exactly the
node and edge collections of applying it once; the second application is a
complete no-op. -/
theorem apply_idempotent (p : MindMapChangeProposal) (m : MindMapData) :
    handleApplyChanges p (handleApplyChanges p m) = handleApplyChanges p m := by
  simp only [handleApplyChanges, MindMapData.mk.injEq]
  constructor
  · have hskip : applyAdds p.nodesToAdd
        (applyUpdates p.nodesToUpdate (applyAdds p.nodesToAdd m.nodes)) =
        applyUpdates p.nodesToUpdate (applyAdds p.nodesToAdd m.nodes) := by
      apply applyAdds_skip
      intro a ha
      rw [nodeIds_applyUpdates]
      exact exists_id_applyAdds _ _ ha
    rw [hskip, applyUpdates_idem]
  · apply applyEdgeAdds_skip
    intro e he
    exact exists_id_applyEdgeAdds _ _ he

end Synapse
